import Mathlib

/-! A shallow embedding of the contact-tracing core of `contact_tracing.py`:
the `Tracker` state (`positions`, `contact_history`, `max_history`), the
position-update handler with its contact scan (`check_contacts`), the
bounded per-agent contact history (`update_contact_history`), and the
query handler (`handle_query`).

Python dicts are modelled as association lists in insertion order
(`positions` is a plain dict, `contact_history` a `defaultdict(deque)`);
`time.time()` is modelled as a monotone tick counter threaded through the
operations, one fresh tick per timestamp stored in a `ContactEvent` or a
query response.  The two loops of `Tracker.check_contacts` are embedded as
`collectContacts` (the scan that builds the `contacts` list) and
`recordContacts` (the loop that writes both directions into the
histories); `recordContacts` additionally returns the list of
`update_contact_history` calls it performs, in order, as a trace, so that
"an event was appended to an agent's history" can be stated even when a
later append of the same call evicts it.
-/

namespace ContactTracing

abbrev AgentId := String

abbrev Pos := Int × Int

structure ContactEvent where
  person : AgentId
  position : Pos
  time : Nat
deriving DecidableEq

/-- Association-list lookup, first binding wins (`dict.get`). -/
def alLookup {β : Type} : List (AgentId × β) → AgentId → Option β
  | [], _ => none
  | (k, v) :: t, a => if k = a then some v else alLookup t a

/-- Association-list store: overwrite the existing binding in place, or
append a new binding at the end (`dict[k] = v`, insertion order kept). -/
def alInsert {β : Type} : List (AgentId × β) → AgentId → β → List (AgentId × β)
  | [], a, b => [(a, b)]
  | (k, v) :: t, a, b => if k = a then (a, b) :: t else (k, v) :: alInsert t a b

structure TrackerState where
  positions : List (AgentId × Pos)
  contact_history : List (AgentId × List ContactEvent)
  max_history : Nat
deriving DecidableEq

/-- The contact history of one agent as a list, oldest first; a missing
agent reads as the empty history (`defaultdict(deque)` read through
`.get(person_id, [])`). -/
def histGet (s : TrackerState) (a : AgentId) : List ContactEvent :=
  (alLookup s.contact_history a).getD []

/-- Embeds `Tracker.update_contact_history`: when the history has reached the
bound, `popleft` the oldest entry, then `append` the new event at the
tail.  Indexing the `defaultdict` installs the agent's entry. -/
def update_contact_history (s : TrackerState) (pid : AgentId) (e : ContactEvent) :
    TrackerState :=
  let h := histGet s pid
  let h2 := if s.max_history ≤ h.length then h.tail ++ [e] else h ++ [e]
  { s with contact_history := alInsert s.contact_history pid h2 }

/-- The first loop of `Tracker.check_contacts`: walk `positions.items()`
and build one `contact_info` per other agent found at `(x, y)`, each
stamped with its own `time.time()` sample (one tick).  Returns the
collected contacts and the advanced clock. -/
def collectContacts (pid : AgentId) (x y : Int) :
    List (AgentId × Pos) → Nat → List ContactEvent × Nat
  | [], clk => ([], clk)
  | (oid, opos) :: rest, clk =>
    if oid ≠ pid ∧ opos = (x, y) then
      (⟨oid, (x, y), clk⟩ :: (collectContacts pid x y rest (clk + 1)).1,
        (collectContacts pid x y rest (clk + 1)).2)
    else
      collectContacts pid x y rest clk

/-- The second loop of `Tracker.check_contacts`: for each collected
contact, append it to `pid`'s history, then build the `reverse_contact`
with a fresh `time.time()` sample and append it to the peer's history.
The third component is the trace of `update_contact_history` calls made,
in order. -/
def recordContacts (pid : AgentId) (x y : Int) :
    List ContactEvent → TrackerState → Nat →
      TrackerState × Nat × List (AgentId × ContactEvent)
  | [], s, clk => (s, clk, [])
  | c :: rest, s, clk =>
    let s2 := update_contact_history (update_contact_history s pid c) c.person
      ⟨pid, (x, y), clk⟩
    let r := recordContacts pid x y rest s2 (clk + 1)
    (r.1, r.2.1, (pid, c) :: (c.person, ⟨pid, (x, y), clk⟩) :: r.2.2)

/-- Embeds `Tracker.check_contacts`: scan, then record both directions. -/
def check_contacts (s : TrackerState) (pid : AgentId) (x y : Int) (clk : Nat) :
    TrackerState × Nat × List (AgentId × ContactEvent) :=
  let c := collectContacts pid x y s.positions clk
  recordContacts pid x y c.1 s c.2

/-- The well-formed path of `Tracker.handle_position_update`: read the old
position, unconditionally overwrite the store, and run the contact scan
exactly when the old position (possibly `none`) differs from the new
one. -/
def ingestPosition (s : TrackerState) (pid : AgentId) (x y : Int) (clk : Nat) :
    TrackerState × Nat × List (AgentId × ContactEvent) :=
  let old := alLookup s.positions pid
  let s1 : TrackerState := { s with positions := alInsert s.positions pid (x, y) }
  if old = some (x, y) then (s1, clk, []) else check_contacts s1 pid x y clk

/-- A delivered position-update message after JSON decoding: either field
may be absent, and the `position` value is an arbitrary list of
integers. -/
structure RawMsg where
  person_id : Option AgentId
  position : Option (List Int)
deriving DecidableEq

/-- Embeds `x, y = data['position']`: unpacking succeeds only for a two-element
sequence. -/
def decodePair : List Int → Option (Int × Int)
  | [x, y] => some (x, y)
  | _ => none

/-- Embeds `Tracker.handle_position_update` with its `try/except`: a missing
`person_id`, a missing `position`, or a `position` that does not unpack
as a pair raises before any state is touched, and the handler logs and
drops the event, returning the state unchanged. -/
def handle_position_update (s : TrackerState) (m : RawMsg) (clk : Nat) :
    TrackerState × Nat × List (AgentId × ContactEvent) :=
  match m.person_id with
  | none => (s, clk, [])
  | some pid =>
    match m.position with
    | none => (s, clk, [])
    | some l =>
      match decodePair l with
      | none => (s, clk, [])
      | some (x, y) => ingestPosition s pid x y clk

structure QueryResult where
  person_id : AgentId
  contacts : List ContactEvent
  timestamp : Nat
deriving DecidableEq

/-- Embeds `Tracker.handle_query`: read the queried agent's history with a
defaulted `.get` (no entry is created), rebuild the contact dicts, and
reply with the agent id, the contacts and a `time.time()` stamp. -/
def handle_query (s : TrackerState) (pid : AgentId) (clk : Nat) :
    QueryResult × TrackerState × Nat :=
  (⟨pid, histGet s pid, clk⟩, s, clk + 1)

/-- The other agents currently stored exactly at `(x, y)`, in snapshot
order: the agents `check_contacts pid x y` detects. -/
def colocatedPeers (s : TrackerState) (pid : AgentId) (x y : Int) : List AgentId :=
  (s.positions.filter (fun q => decide (q.1 ≠ pid ∧ q.2 = (x, y)))).map Prod.fst

/-- A grid cell of the bounded board: both coordinates in `[0, bs)`. -/
def inRange (bs : Int) (p : Pos) : Prop :=
  0 ≤ p.1 ∧ p.1 < bs ∧ 0 ≤ p.2 ∧ p.2 < bs

instance (bs : Int) (p : Pos) : Decidable (inRange bs p) := by
  unfold inRange
  exact inferInstance

/-- The eight candidate steps of `PersonSimulator.move_randomly`. -/
def directions : List (Int × Int) :=
  [(0, 1), (1, 0), (0, -1), (-1, 0), (1, 1), (1, -1), (-1, 1), (-1, -1)]

/-- The clamped move of `PersonSimulator.move_randomly`: add the chosen
direction and clamp each coordinate into `[0, board_size - 1]`. -/
def move_randomly_pos (bs : Int) (p : Pos) (d : Int × Int) : Pos :=
  (max 0 (min (bs - 1) (p.1 + d.1)), max 0 (min (bs - 1) (p.2 + d.2)))

/-! Section: Association-list lemmas -/

theorem alLookup_alInsert_self {β : Type} (l : List (AgentId × β)) (a : AgentId) (b : β) :
    alLookup (alInsert l a b) a = some b := by
  induction l with
  | nil => simp [alInsert, alLookup]
  | cons kv t ih =>
    obtain ⟨k, v⟩ := kv
    by_cases h : k = a
    · simp [alInsert, h, alLookup]
    · simp [alInsert, h, alLookup, ih]

theorem alLookup_alInsert_ne {β : Type} (l : List (AgentId × β)) (a : AgentId) (b : β)
    (a2 : AgentId) (h : a2 ≠ a) : alLookup (alInsert l a b) a2 = alLookup l a2 := by
  induction l with
  | nil =>
    simp only [alInsert, alLookup]
    rw [if_neg (Ne.symm h)]
  | cons kv t ih =>
    obtain ⟨k, v⟩ := kv
    by_cases hk : k = a
    · subst hk
      simp only [alInsert, if_pos rfl, alLookup]
      rw [if_neg (Ne.symm h), if_neg (Ne.symm h)]
    · simp only [alInsert, if_neg hk, alLookup]
      by_cases hk2 : k = a2
      · rw [if_pos hk2, if_pos hk2]
      · rw [if_neg hk2, if_neg hk2, ih]

theorem mem_alInsert {β : Type} (l : List (AgentId × β)) (a : AgentId) (b : β)
    (x : AgentId × β) (hx : x ∈ alInsert l a b) : x = (a, b) ∨ x ∈ l := by
  induction l with
  | nil => simpa [alInsert] using hx
  | cons kv t ih =>
    obtain ⟨k, v⟩ := kv
    by_cases hk : k = a
    · simp only [alInsert, hk, if_pos rfl] at hx
      rcases List.mem_cons.1 hx with h | h
      · exact Or.inl h
      · exact Or.inr (List.mem_cons_of_mem _ h)
    · simp only [alInsert, if_neg hk] at hx
      rcases List.mem_cons.1 hx with h | h
      · exact Or.inr (h ▸ List.mem_cons_self _ _)
      · rcases ih h with h2 | h2
        · exact Or.inl h2
        · exact Or.inr (List.mem_cons_of_mem _ h2)

theorem alLookup_mem {β : Type} (l : List (AgentId × β)) (a : AgentId) (b : β)
    (h : alLookup l a = some b) : (a, b) ∈ l := by
  induction l with
  | nil => simp [alLookup] at h
  | cons kv t ih =>
    obtain ⟨k, v⟩ := kv
    by_cases hk : k = a
    · subst hk
      simp [alLookup] at h
      subst h
      exact List.mem_cons_self _ _
    · simp only [alLookup, if_neg hk] at h
      exact List.mem_cons_of_mem _ (ih h)

/-! Section: `update_contact_history` lemmas -/

theorem histGet_update_self (s : TrackerState) (pid : AgentId) (e : ContactEvent) :
    histGet (update_contact_history s pid e) pid =
      (if s.max_history ≤ (histGet s pid).length then (histGet s pid).tail
        else histGet s pid) ++ [e] := by
  unfold update_contact_history histGet
  simp only [alLookup_alInsert_self, Option.getD_some]
  split <;> rfl

theorem histGet_update_ne (s : TrackerState) (pid : AgentId) (e : ContactEvent)
    (q : AgentId) (hq : q ≠ pid) :
    histGet (update_contact_history s pid e) q = histGet s q := by
  unfold update_contact_history histGet
  simp only [alLookup_alInsert_ne _ _ _ _ hq]

theorem positions_update (s : TrackerState) (pid : AgentId) (e : ContactEvent) :
    (update_contact_history s pid e).positions = s.positions := rfl

theorem max_history_update (s : TrackerState) (pid : AgentId) (e : ContactEvent) :
    (update_contact_history s pid e).max_history = s.max_history := rfl

/-- The new history after one `update_contact_history` drops zero or one
element from the head of the old one and appends the new event. -/
theorem histGet_update_self_drop (s : TrackerState) (pid : AgentId) (e : ContactEvent) :
    ∃ k, histGet (update_contact_history s pid e) pid = (histGet s pid).drop k ++ [e] := by
  rw [histGet_update_self]
  by_cases h : s.max_history ≤ (histGet s pid).length
  · exact ⟨1, by simp [h, List.tail_drop]⟩
  · exact ⟨0, by simp [h]⟩

/-! Section: Lemmas about the scan loop `collectContacts` -/

theorem collect_map_person (pid : AgentId) (x y : Int) (l : List (AgentId × Pos))
    (clk : Nat) :
    ((collectContacts pid x y l clk).1).map ContactEvent.person =
      (l.filter (fun q => decide (q.1 ≠ pid ∧ q.2 = (x, y)))).map Prod.fst := by
  induction l generalizing clk with
  | nil => simp [collectContacts]
  | cons kv t ih =>
    obtain ⟨oid, opos⟩ := kv
    by_cases h : oid ≠ pid ∧ opos = (x, y)
    · simp [collectContacts, h, List.filter_cons, ih]
    · simp [collectContacts, h, List.filter_cons, ih]

theorem collect_clk_le (pid : AgentId) (x y : Int) (l : List (AgentId × Pos))
    (clk : Nat) : clk ≤ (collectContacts pid x y l clk).2 := by
  induction l generalizing clk with
  | nil => simp [collectContacts]
  | cons kv t ih =>
    obtain ⟨oid, opos⟩ := kv
    by_cases h : oid ≠ pid ∧ opos = (x, y)
    · simp only [collectContacts, if_pos h]
      exact le_trans (Nat.le_succ clk) (ih (clk + 1))
    · simp only [collectContacts, if_neg h]
      exact ih clk

theorem collect_mem (pid : AgentId) (x y : Int) (l : List (AgentId × Pos)) (clk : Nat)
    (e : ContactEvent) (he : e ∈ (collectContacts pid x y l clk).1) :
    e.position = (x, y) ∧ e.person ≠ pid ∧ clk ≤ e.time ∧
      e.time < (collectContacts pid x y l clk).2 := by
  induction l generalizing clk with
  | nil => simp [collectContacts] at he
  | cons kv t ih =>
    obtain ⟨oid, opos⟩ := kv
    by_cases h : oid ≠ pid ∧ opos = (x, y)
    · simp only [collectContacts, if_pos h] at he ⊢
      rcases List.mem_cons.1 he with h2 | h2
      · subst h2
        refine ⟨rfl, h.1, le_refl _, ?_⟩
        exact lt_of_lt_of_le (Nat.lt_succ_self clk) (collect_clk_le pid x y t (clk + 1))
      · obtain ⟨hp, hn, hc, hlt⟩ := ih (clk + 1) h2
        exact ⟨hp, hn, le_trans (Nat.le_succ clk) hc, hlt⟩
    · simp only [collectContacts, if_neg h] at he ⊢
      exact ih clk he

/-! Section: The append trace of `recordContacts` -/

/-- Closed form of the trace of history appends `recordContacts`
performs: per collected contact, the forward event into `pid`'s history,
then the freshly stamped reverse event into the peer's history. -/
def traceOf (pid : AgentId) (x y : Int) :
    List ContactEvent → Nat → List (AgentId × ContactEvent)
  | [], _ => []
  | c :: rest, clk =>
    (pid, c) :: (c.person, ⟨pid, (x, y), clk⟩) :: traceOf pid x y rest (clk + 1)

theorem record_trace (pid : AgentId) (x y : Int) (cs : List ContactEvent)
    (s : TrackerState) (clk : Nat) :
    (recordContacts pid x y cs s clk).2.2 = traceOf pid x y cs clk := by
  induction cs generalizing s clk with
  | nil => rfl
  | cons c rest ih => simp [recordContacts, traceOf, ih]

theorem record_state_foldl (pid : AgentId) (x y : Int) (cs : List ContactEvent)
    (s : TrackerState) (clk : Nat) :
    (recordContacts pid x y cs s clk).1 =
      (traceOf pid x y cs clk).foldl
        (fun st pr => update_contact_history st pr.1 pr.2) s := by
  induction cs generalizing s clk with
  | nil => rfl
  | cons c rest ih => simp [recordContacts, traceOf, List.foldl_cons, ih]

theorem traceOf_fst_mem (pid : AgentId) (x y : Int) (cs : List ContactEvent) (clk : Nat)
    (pr : AgentId × ContactEvent) (h : pr ∈ traceOf pid x y cs clk) :
    pr.1 = pid ∨ pr.1 ∈ cs.map ContactEvent.person := by
  induction cs generalizing clk with
  | nil => simp [traceOf] at h
  | cons c rest ih =>
    simp only [traceOf, List.mem_cons] at h
    rcases h with h | h | h
    · exact Or.inl (by rw [h])
    · exact Or.inr (by rw [h]; exact List.mem_cons_self _ _)
    · rcases ih (clk + 1) h with h2 | h2
      · exact Or.inl h2
      · exact Or.inr (List.mem_cons_of_mem _ h2)

theorem traceOf_filter_pid (pid : AgentId) (x y : Int) (cs : List ContactEvent)
    (clk : Nat) (h : ∀ c ∈ cs, c.person ≠ pid) :
    (traceOf pid x y cs clk).filter (fun pr => decide (pr.1 = pid)) =
      cs.map (fun c => (pid, c)) := by
  induction cs generalizing clk with
  | nil => rfl
  | cons c rest ih =>
    have hc : c.person ≠ pid := h c (List.mem_cons_self _ _)
    have ih2 := ih (clk + 1) (fun d hd => h d (List.mem_cons_of_mem _ hd))
    simp [traceOf, List.filter_cons, hc, ih2]

theorem traceOf_filter_not_mem (pid : AgentId) (x y : Int) (cs : List ContactEvent)
    (clk : Nat) (p : AgentId) (hp : p ≠ pid) (h : p ∉ cs.map ContactEvent.person) :
    (traceOf pid x y cs clk).filter (fun pr => decide (pr.1 = p)) = [] := by
  induction cs generalizing clk with
  | nil => rfl
  | cons c rest ih =>
    have hc : c.person ≠ p := by
      intro h2
      exact h (h2 ▸ List.mem_map_of_mem ContactEvent.person (List.mem_cons_self _ _))
    have ih2 := ih (clk + 1) (fun h2 => h (List.mem_cons_of_mem _ h2))
    simp [traceOf, List.filter_cons, Ne.symm hp, hc, ih2]

theorem traceOf_filter_peer (pid : AgentId) (x y : Int) (cs : List ContactEvent)
    (clk : Nat) (p : AgentId) (hnd : (cs.map ContactEvent.person).Nodup)
    (hp : p ≠ pid) (hmem : p ∈ cs.map ContactEvent.person) :
    ∃ t, clk ≤ t ∧
      (traceOf pid x y cs clk).filter (fun pr => decide (pr.1 = p)) =
        [(p, ⟨pid, (x, y), t⟩)] := by
  induction cs generalizing clk with
  | nil => simp at hmem
  | cons c rest ih =>
    simp only [List.map_cons, List.nodup_cons] at hnd
    by_cases hc : c.person = p
    · refine ⟨clk, le_refl _, ?_⟩
      have hn : p ∉ rest.map ContactEvent.person := hc ▸ hnd.1
      have hrest := traceOf_filter_not_mem pid x y rest (clk + 1) p hp hn
      simp [traceOf, List.filter_cons, Ne.symm hp, hc, hrest]
    · have hmem2 : p ∈ rest.map ContactEvent.person := by
        rcases (by simpa using hmem : p = c.person ∨ ∃ a ∈ rest, a.person = p) with
          h2 | h2
        · exact absurd h2.symm hc
        · obtain ⟨a, ha, ha2⟩ := h2
          exact ha2 ▸ List.mem_map_of_mem ContactEvent.person ha
      obtain ⟨t, ht, heq⟩ := ih (clk + 1) hnd.2 hmem2
      refine ⟨t, le_trans (Nat.le_succ clk) ht, ?_⟩
      simp [traceOf, List.filter_cons, Ne.symm hp, hc, heq]

theorem traceOf_filter_forward (pid : AgentId) (x y : Int) (cs : List ContactEvent)
    (clk : Nat) (p : AgentId) (h : ∀ c ∈ cs, c.person ≠ pid) :
    (traceOf pid x y cs clk).filter
        (fun pr => decide (pr.1 = pid ∧ pr.2.person = p)) =
      (cs.filter (fun c => decide (c.person = p))).map (fun c => (pid, c)) := by
  induction cs generalizing clk with
  | nil => rfl
  | cons c rest ih =>
    have hc : c.person ≠ pid := h c (List.mem_cons_self _ _)
    have ih2 := ih (clk + 1) (fun d hd => h d (List.mem_cons_of_mem _ hd))
    simp only [Bool.decide_and] at ih2
    by_cases hcp : c.person = p
    · have hppid : p ≠ pid := hcp ▸ hc
      simp [traceOf, List.filter_cons, hc, hcp, hppid, ih2]
    · simp [traceOf, List.filter_cons, hc, hcp, ih2]

theorem traceOf_mem_forward (pid : AgentId) (x y : Int) (cs : List ContactEvent)
    (clk : Nat) (c : ContactEvent) (hc : c ∈ cs) :
    (pid, c) ∈ traceOf pid x y cs clk := by
  induction cs generalizing clk with
  | nil => simp at hc
  | cons d rest ih =>
    rcases List.mem_cons.1 hc with h | h
    · subst h
      exact List.mem_cons_self _ _
    · exact List.mem_cons_of_mem _ (List.mem_cons_of_mem _ (ih (clk + 1) h))

theorem traceOf_mem_reverse (pid : AgentId) (x y : Int) (cs : List ContactEvent)
    (clk : Nat) (c : ContactEvent) (hc : c ∈ cs) :
    ∃ t, (c.person, (⟨pid, (x, y), t⟩ : ContactEvent)) ∈ traceOf pid x y cs clk := by
  induction cs generalizing clk with
  | nil => simp at hc
  | cons d rest ih =>
    rcases List.mem_cons.1 hc with h | h
    · subst h
      exact ⟨clk, List.mem_cons_of_mem _ (List.mem_cons_self _ _)⟩
    · obtain ⟨t, ht⟩ := ih (clk + 1) h
      exact ⟨t, List.mem_cons_of_mem _ (List.mem_cons_of_mem _ ht)⟩

/-! Section: Frame lemmas -/

theorem foldl_update_histGet_frame (tr : List (AgentId × ContactEvent))
    (s : TrackerState) (q : AgentId) (h : ∀ pr ∈ tr, pr.1 ≠ q) :
    histGet (tr.foldl (fun st pr => update_contact_history st pr.1 pr.2) s) q =
      histGet s q := by
  induction tr generalizing s with
  | nil => rfl
  | cons pr rest ih =>
    rw [List.foldl_cons, ih _ (fun d hd => h d (List.mem_cons_of_mem _ hd)),
      histGet_update_ne _ _ _ _ (Ne.symm (h pr (List.mem_cons_self _ _)))]

theorem record_positions (pid : AgentId) (x y : Int) (cs : List ContactEvent)
    (s : TrackerState) (clk : Nat) :
    (recordContacts pid x y cs s clk).1.positions = s.positions := by
  induction cs generalizing s clk with
  | nil => rfl
  | cons c rest ih => simp [recordContacts, ih, positions_update]

theorem check_contacts_positions (s : TrackerState) (pid : AgentId) (x y : Int)
    (clk : Nat) : (check_contacts s pid x y clk).1.positions = s.positions :=
  record_positions _ _ _ _ _ _

/-! Section: `colocatedPeers` lemmas -/

theorem colocatedPeers_nodup (s : TrackerState) (pid : AgentId) (x y : Int)
    (hnodup : (s.positions.map Prod.fst).Nodup) :
    (colocatedPeers s pid x y).Nodup := by
  unfold colocatedPeers
  exact hnodup.sublist (List.Sublist.map Prod.fst (List.filter_sublist _))

theorem mem_colocatedPeers_ne (s : TrackerState) (pid : AgentId) (x y : Int)
    (p : AgentId) (hp : p ∈ colocatedPeers s pid x y) : p ≠ pid := by
  unfold colocatedPeers at hp
  obtain ⟨q, hq, hq2⟩ := List.mem_map.1 hp
  have := (List.mem_filter.1 hq).2
  simp only [decide_eq_true_eq] at this
  exact hq2 ▸ this.1

theorem mem_colocatedPeers_of_lookup (s : TrackerState) (pid : AgentId) (x y : Int)
    (p : AgentId) (hp : p ≠ pid) (hl : alLookup s.positions p = some (x, y)) :
    p ∈ colocatedPeers s pid x y := by
  unfold colocatedPeers
  refine List.mem_map.2 ⟨(p, (x, y)), List.mem_filter.2 ⟨alLookup_mem _ _ _ hl, ?_⟩, rfl⟩
  simp [hp]

/-! Section: Further structural lemmas -/

theorem traceOf_mem_cases (pid : AgentId) (x y : Int) (cs : List ContactEvent)
    (clk : Nat) (pr : AgentId × ContactEvent) (h : pr ∈ traceOf pid x y cs clk) :
    (pr.1 = pid ∧ pr.2 ∈ cs) ∨
      (pr.1 ∈ cs.map ContactEvent.person ∧ pr.2.person = pid ∧
        pr.2.position = (x, y)) := by
  induction cs generalizing clk with
  | nil => simp [traceOf] at h
  | cons c rest ih =>
    simp only [traceOf, List.mem_cons] at h
    rcases h with h | h | h
    · subst h
      exact Or.inl ⟨rfl, List.mem_cons_self _ _⟩
    · subst h
      exact Or.inr ⟨List.mem_map_of_mem _ (List.mem_cons_self _ _), rfl, rfl⟩
    · rcases ih (clk + 1) h with ⟨h1, h2⟩ | ⟨h1, h2, h3⟩
      · exact Or.inl ⟨h1, List.mem_cons_of_mem _ h2⟩
      · refine Or.inr ⟨?_, h2, h3⟩
        simp only [List.map_cons]
        exact List.mem_cons_of_mem _ h1

theorem filter_person_eq_singleton (cs : List ContactEvent) (p : AgentId)
    (hnd : (cs.map ContactEvent.person).Nodup)
    (hmem : p ∈ cs.map ContactEvent.person) :
    ∃ c, c ∈ cs ∧ c.person = p ∧
      cs.filter (fun d => decide (d.person = p)) = [c] := by
  induction cs with
  | nil => simp at hmem
  | cons d rest ih =>
    simp only [List.map_cons, List.nodup_cons] at hnd
    by_cases hd : d.person = p
    · refine ⟨d, List.mem_cons_self _ _, hd, ?_⟩
      have hrest : rest.filter (fun e => decide (e.person = p)) = [] := by
        rw [List.filter_eq_nil_iff]
        intro a ha
        simp only [decide_eq_true_eq]
        intro h2
        exact (hd ▸ hnd.1) (h2 ▸ List.mem_map_of_mem ContactEvent.person ha)
      simp [List.filter_cons, hd, hrest]
    · have hmem2 : p ∈ rest.map ContactEvent.person := by
        rcases (by simpa using hmem : p = d.person ∨ ∃ a ∈ rest, a.person = p) with
          h2 | h2
        · exact absurd h2.symm hd
        · obtain ⟨a, ha, ha2⟩ := h2
          exact ha2 ▸ List.mem_map_of_mem ContactEvent.person ha
      obtain ⟨c, hc, hcp, heq⟩ := ih hnd.2 hmem2
      exact ⟨c, List.mem_cons_of_mem _ hc, hcp, by simp [List.filter_cons, hd, heq]⟩

theorem ingestPosition_positions (s : TrackerState) (pid : AgentId) (x y : Int)
    (clk : Nat) :
    (ingestPosition s pid x y clk).1.positions = alInsert s.positions pid (x, y) := by
  by_cases h : alLookup s.positions pid = some (x, y)
  · simp only [ingestPosition, if_pos h]
  · simp only [ingestPosition, if_neg h]
    exact check_contacts_positions _ _ _ _ _

/-- Folding `update_contact_history` for one agent over an event list
moves the history to a window of the appended stream: the bound `mh`
newest of the old history followed by the new events. -/
theorem foldl_update_histGet (pid : AgentId) (mh : Nat) (hmh : 1 ≤ mh)
    (es : List ContactEvent) :
    ∀ (s : TrackerState), s.max_history = mh → (histGet s pid).length ≤ mh →
      histGet (es.foldl (fun st e => update_contact_history st pid e) s) pid =
        (histGet s pid ++ es).drop ((histGet s pid ++ es).length - mh) := by
  induction es with
  | nil =>
    intro s hmax hlen
    simp [Nat.sub_eq_zero_of_le hlen]
  | cons e rest ih =>
    intro s hmax hlen
    rw [List.foldl_cons]
    have hget := histGet_update_self s pid e
    rw [hmax] at hget
    by_cases hc : mh ≤ (histGet s pid).length
    · have hL : (histGet s pid).length = mh := le_antisymm hlen hc
      obtain ⟨hd, tl, hht⟩ : ∃ hd tl, histGet s pid = hd :: tl := by
        cases hh : histGet s pid with
        | nil =>
          rw [hh] at hL
          simp at hL
          omega
        | cons a b => exact ⟨a, b, rfl⟩
      have h1 : tl.length + 1 = mh := by
        rw [hht] at hL
        simpa using hL
      rw [if_pos hc] at hget
      have hlen2 : (histGet (update_contact_history s pid e) pid).length ≤ mh := by
        rw [hget, hht]
        simp only [List.tail_cons, List.length_append, List.length_singleton]
        omega
      have hrec := ih (update_contact_history s pid e)
        (by rw [max_history_update, hmax]) hlen2
      rw [hrec, hget, hht]
      simp only [List.tail_cons]
      rw [List.append_assoc, List.singleton_append, List.cons_append]
      have hlen3 : (tl ++ e :: rest).length - mh = rest.length := by
        simp only [List.length_append, List.length_cons]
        omega
      have hlen4 : (hd :: (tl ++ e :: rest)).length - mh = rest.length + 1 := by
        simp only [List.length_cons, List.length_append]
        omega
      rw [hlen3, hlen4, List.drop_succ_cons]
    · rw [if_neg hc] at hget
      have hlen2 : (histGet (update_contact_history s pid e) pid).length ≤ mh := by
        rw [hget]
        simp only [List.length_append, List.length_singleton]
        omega
      have hrec := ih (update_contact_history s pid e)
        (by rw [max_history_update, hmax]) hlen2
      rw [hrec, hget, List.append_assoc, List.singleton_append]

/-! Section: Concrete agents and states used by witnesses and counterexamples -/

def cP1 : AgentId := "person1"

def cP2 : AgentId := "person2"

def cP3 : AgentId := "person3"

def wA : AgentId := "w"

def ghostId : AgentId := "ghost"

/-- The store of the source's own test `test_position_check`. -/
def tState : TrackerState :=
  { positions := [(cP1, (1, 1)), (cP2, (1, 1)), (cP3, (2, 2))],
    contact_history := [], max_history := 100 }

/-- A store in which `cP1` has never reported and `cP2` occupies `(1, 1)`. -/
def fState : TrackerState :=
  { positions := [(cP2, (1, 1)), (cP3, (2, 2))],
    contact_history := [], max_history := 100 }

/-- An empty tracker with history bound 2. -/
def wS0 : TrackerState :=
  { positions := [], contact_history := [], max_history := 2 }

def wEv (n : Nat) : ContactEvent := ⟨wA, (0, 0), n⟩

/-! Section: Claim theorems -/

/-- Claim C2: for every sequence of `update_contact_history` appends to one
agent's history, starting from an empty history with bound `mh ≥ 1`, the
history length never exceeds `mh` (also at every intermediate point), and
the final history is exactly the most recent `mh` appended events in call
order — oldest evicted first, surviving events in append order. -/
theorem update_contact_history_fifo (mh : Nat) (hmh : 1 ≤ mh) (pid : AgentId)
    (s0 : TrackerState) (hmax : s0.max_history = mh) (h0 : histGet s0 pid = [])
    (es : List ContactEvent) :
    histGet (es.foldl (fun st e => update_contact_history st pid e) s0) pid =
        es.drop (es.length - mh) ∧
      (histGet (es.foldl (fun st e => update_contact_history st pid e) s0) pid).length
          ≤ mh ∧
      ∀ k, (histGet ((es.take k).foldl
          (fun st e => update_contact_history st pid e) s0) pid).length ≤ mh := by
  have main : ∀ l : List ContactEvent,
      histGet (l.foldl (fun st e => update_contact_history st pid e) s0) pid =
        l.drop (l.length - mh) := by
    intro l
    have h2 := foldl_update_histGet pid mh hmh l s0 hmax (by rw [h0]; simp)
    rw [h0] at h2
    simpa using h2
  refine ⟨main es, ?_, ?_⟩
  · rw [main es, List.length_drop]
    omega
  · intro k
    rw [main (es.take k), List.length_drop]
    omega

/-- Witness for C2 at bound 2 with three appended events. -/
theorem update_contact_history_fifo_witness :
    (1 ≤ 2 ∧ wS0.max_history = 2 ∧ histGet wS0 wA = []) ∧
      histGet ([wEv 1, wEv 2, wEv 3].foldl
          (fun st e => update_contact_history st wA e) wS0) wA =
        [wEv 1, wEv 2, wEv 3].drop ([wEv 1, wEv 2, wEv 3].length - 2) :=
  ⟨⟨by decide, rfl, rfl⟩,
    (update_contact_history_fifo 2 (by decide) wA wS0 rfl rfl [wEv 1, wEv 2, wEv 3]).1⟩

/-- Claim C5: `handle_query` always produces a reply: it carries the queried
agent id and a timestamp, its contacts are the agent's current history,
and for an agent with no history entry (a never-seen agent) the contacts
field is the empty list rather than an error or a none value. -/
theorem handle_query_total (s : TrackerState) (pid : AgentId) (clk : Nat) :
    (handle_query s pid clk).1.person_id = pid ∧
      (handle_query s pid clk).1.timestamp = clk ∧
      (handle_query s pid clk).1.contacts = histGet s pid ∧
      (alLookup s.contact_history pid = none →
        (handle_query s pid clk).1.contacts = []) := by
  refine ⟨rfl, rfl, rfl, ?_⟩
  intro h
  simp [handle_query, histGet, h]

/-- Witness for C5: querying a never-seen agent yields the empty list. -/
theorem handle_query_total_witness :
    alLookup wS0.contact_history ghostId = none ∧
      (handle_query wS0 ghostId 0).1.contacts = [] :=
  ⟨rfl, (handle_query_total wS0 ghostId 0).2.2.2 rfl⟩

/-- Claim C6: a malformed position update — missing `person_id`, missing
`position`, or a `position` that does not unpack as a coordinate pair —
is dropped: the handler returns with the tracker state exactly as it was,
and no history append is performed. -/
theorem handle_position_update_malformed (s : TrackerState) (m : RawMsg) (clk : Nat)
    (h : m.person_id = none ∨ m.position = none ∨
      ∃ l, m.position = some l ∧ decodePair l = none) :
    handle_position_update s m clk = (s, clk, []) := by
  obtain ⟨mp, mpos⟩ := m
  rcases h with h | h | ⟨l, h1, h2⟩
  · simp only at h
    subst h
    rfl
  · simp only at h
    subst h
    cases mp <;> rfl
  · simp only at h1
    subst h1
    cases mp with
    | none => rfl
    | some pid => simp [handle_position_update, h2]

/-- Witness for C6: a three-element position list is rejected without any
state change. -/
theorem handle_position_update_malformed_witness :
    handle_position_update wS0 ⟨some wA, some [1, 2, 3]⟩ 0 = (wS0, 0, []) :=
  handle_position_update_malformed wS0 ⟨some wA, some [1, 2, 3]⟩ 0
    (Or.inr (Or.inr ⟨[1, 2, 3], rfl, rfl⟩))

/-- Claim C10: `handle_query` never changes the tracker state: the position
store and every contact history are identical before and after, and in
particular no (empty) history entry is created for a never-seen agent —
the lookup is a defaulted get, not defaultdict indexing. -/
theorem handle_query_frame (s : TrackerState) (pid : AgentId) (clk : Nat) :
    (handle_query s pid clk).2.1 = s ∧
      (handle_query s pid clk).2.1.contact_history.map Prod.fst =
        s.contact_history.map Prod.fst :=
  ⟨rfl, rfl⟩

/-- Claim C1: for any store with distinct agent keys that holds `(x, y)` for
`pid`, the scan `check_contacts pid x y` appends, per other agent stored
exactly at `(x, y)`, exactly one event naming that peer to `pid`'s
history and exactly one event naming `pid` to the peer's history; no
appended event in `pid`'s history names `pid` itself; agents not
co-located receive no appends and their histories are unchanged; and the
resulting state is exactly the fold of the append trace. -/
theorem check_contacts_bidirectional (s : TrackerState) (pid : AgentId) (x y : Int)
    (clk : Nat) (hnodup : (s.positions.map Prod.fst).Nodup)
    (hself : alLookup s.positions pid = some (x, y)) :
    (((check_contacts s pid x y clk).2.2.filter
          (fun pr => decide (pr.1 = pid))).map (fun pr => pr.2.person) =
        colocatedPeers s pid x y)
    ∧ (∀ pr ∈ (check_contacts s pid x y clk).2.2, pr.1 = pid →
        pr.2.person ≠ pid ∧ pr.2.position = (x, y))
    ∧ (∀ p ∈ colocatedPeers s pid x y, ∃ t,
        (check_contacts s pid x y clk).2.2.filter (fun pr => decide (pr.1 = p)) =
          [(p, ⟨pid, (x, y), t⟩)])
    ∧ (∀ q, q ∉ colocatedPeers s pid x y → q ≠ pid →
        (check_contacts s pid x y clk).2.2.filter (fun pr => decide (pr.1 = q)) = []
          ∧ histGet (check_contacts s pid x y clk).1 q = histGet s q)
    ∧ (check_contacts s pid x y clk).1 =
        (check_contacts s pid x y clk).2.2.foldl
          (fun st pr => update_contact_history st pr.1 pr.2) s := by
  set cs := (collectContacts pid x y s.positions clk).1 with hcs
  set clk1 := (collectContacts pid x y s.positions clk).2 with hclk1
  have hcc : check_contacts s pid x y clk = recordContacts pid x y cs s clk1 := rfl
  have htr : (check_contacts s pid x y clk).2.2 = traceOf pid x y cs clk1 := by
    rw [hcc, record_trace]
  have hst : (check_contacts s pid x y clk).1 =
      (traceOf pid x y cs clk1).foldl
        (fun st pr => update_contact_history st pr.1 pr.2) s := by
    rw [hcc, record_state_foldl]
  have hperson : cs.map ContactEvent.person = colocatedPeers s pid x y := by
    unfold colocatedPeers
    exact collect_map_person pid x y s.positions clk
  have hne : ∀ c ∈ cs, c.person ≠ pid := fun c hc =>
    (collect_mem pid x y s.positions clk c hc).2.1
  have hnd : (cs.map ContactEvent.person).Nodup := by
    rw [hperson]
    exact colocatedPeers_nodup s pid x y hnodup
  refine ⟨?_, ?_, ?_, ?_, ?_⟩
  · rw [htr, traceOf_filter_pid pid x y cs clk1 hne, List.map_map]
    simpa using hperson
  · intro pr hpr hpid
    rw [htr] at hpr
    rcases traceOf_mem_cases pid x y cs clk1 pr hpr with ⟨h1, h2⟩ | ⟨h1, h2, h3⟩
    · have hm := collect_mem pid x y s.positions clk pr.2 h2
      exact ⟨hm.2.1, hm.1⟩
    · exfalso
      obtain ⟨c, hc, hcp⟩ := List.mem_map.1 h1
      exact hne c hc (hcp.trans hpid)
  · intro p hp
    have hpne : p ≠ pid := mem_colocatedPeers_ne s pid x y p hp
    have hpm : p ∈ cs.map ContactEvent.person := by
      rw [hperson]
      exact hp
    obtain ⟨t, ht, heq⟩ := traceOf_filter_peer pid x y cs clk1 p hnd hpne hpm
    refine ⟨t, ?_⟩
    rw [htr]
    exact heq
  · intro q hq hqpid
    have hqm : q ∉ cs.map ContactEvent.person := by
      rw [hperson]
      exact hq
    constructor
    · rw [htr]
      exact traceOf_filter_not_mem pid x y cs clk1 q hqpid hqm
    · rw [hst]
      apply foldl_update_histGet_frame
      intro pr hpr
      rcases traceOf_fst_mem pid x y cs clk1 pr hpr with h1 | h1
      · rw [h1]
        exact Ne.symm hqpid
      · intro he
        exact hqm (he ▸ h1)
  · rw [hst, htr]

/-- Witness for C1 on the store of the source's test. -/
theorem check_contacts_bidirectional_witness :
    ((check_contacts tState cP1 1 1 0).2.2.filter
        (fun pr => decide (pr.1 = cP1))).map (fun pr => pr.2.person) =
      colocatedPeers tState cP1 1 1 :=
  (check_contacts_bidirectional tState cP1 1 1 0 (by decide) (by decide)).1

/-- Claim C7: for each detected peer, the single event written to `pid`'s
history and the single mirror event written to the peer's history both
carry position `(x, y)`, but are stamped by two distinct `time.time()`
samples — the forward stamp is taken during the scan, the reverse stamp
when the mirror direction is recorded, so the two stamps differ. -/
theorem check_contacts_two_timestamps (s : TrackerState) (pid : AgentId) (x y : Int)
    (clk : Nat) (hnodup : (s.positions.map Prod.fst).Nodup) :
    ∀ p ∈ colocatedPeers s pid x y, ∃ tf tr2,
      (check_contacts s pid x y clk).2.2.filter
          (fun pr => decide (pr.1 = pid ∧ pr.2.person = p)) =
        [(pid, ⟨p, (x, y), tf⟩)] ∧
      (check_contacts s pid x y clk).2.2.filter (fun pr => decide (pr.1 = p)) =
        [(p, ⟨pid, (x, y), tr2⟩)] ∧
      tf ≠ tr2 := by
  intro p hp
  set cs := (collectContacts pid x y s.positions clk).1 with hcs
  set clk1 := (collectContacts pid x y s.positions clk).2 with hclk1
  have hcc : check_contacts s pid x y clk = recordContacts pid x y cs s clk1 := rfl
  have htr : (check_contacts s pid x y clk).2.2 = traceOf pid x y cs clk1 := by
    rw [hcc, record_trace]
  have hperson : cs.map ContactEvent.person = colocatedPeers s pid x y := by
    unfold colocatedPeers
    exact collect_map_person pid x y s.positions clk
  have hne : ∀ c ∈ cs, c.person ≠ pid := fun c hc =>
    (collect_mem pid x y s.positions clk c hc).2.1
  have hnd : (cs.map ContactEvent.person).Nodup := by
    rw [hperson]
    exact colocatedPeers_nodup s pid x y hnodup
  have hpne : p ≠ pid := mem_colocatedPeers_ne s pid x y p hp
  have hpm : p ∈ cs.map ContactEvent.person := by
    rw [hperson]
    exact hp
  obtain ⟨c, hc, hcp, hfil⟩ := filter_person_eq_singleton cs p hnd hpm
  have hcm := collect_mem pid x y s.positions clk c hc
  have hcform : c = ⟨p, (x, y), c.time⟩ := by
    obtain ⟨a, b, t2⟩ := c
    simp only [ContactEvent.mk.injEq]
    exact ⟨by simpa using hcp, by simpa using hcm.1, trivial⟩
  obtain ⟨t, ht, heq⟩ := traceOf_filter_peer pid x y cs clk1 p hnd hpne hpm
  refine ⟨c.time, t, ?_, ?_, ?_⟩
  · rw [htr, traceOf_filter_forward pid x y cs clk1 p hne, hfil]
    exact congrArg (fun e => [(pid, e)]) hcform
  · rw [htr]
    exact heq
  · have hlt : c.time < clk1 := hcm.2.2.2
    omega

/-- Witness for C7 on the store of the source's test. -/
theorem check_contacts_two_timestamps_witness :
    ∃ tf tr2,
      (check_contacts tState cP1 1 1 0).2.2.filter
          (fun pr => decide (pr.1 = cP1 ∧ pr.2.person = cP2)) =
        [(cP1, ⟨cP2, (1, 1), tf⟩)] ∧
      (check_contacts tState cP1 1 1 0).2.2.filter
          (fun pr => decide (pr.1 = cP2)) =
        [(cP2, ⟨cP1, (1, 1), tr2⟩)] ∧
      tf ≠ tr2 :=
  check_contacts_two_timestamps tState cP1 1 1 0 (by decide) cP2 (by decide)

/-- Claim C3: every ingested update unconditionally overwrites the stored
position; the scan runs exactly when the previously stored position
(possibly none) differs from the new one — so an unchanged re-publish
appends nothing, while a first report from a previously-unseen agent
always scans and, when its cell is already occupied by a peer, records a
contact event in both directions. -/
theorem handle_position_update_gate (s : TrackerState) (pid : AgentId) (x y : Int)
    (clk : Nat) :
    (ingestPosition s pid x y clk).1.positions = alInsert s.positions pid (x, y)
    ∧ (alLookup s.positions pid = some (x, y) →
        ingestPosition s pid x y clk =
          ({ s with positions := alInsert s.positions pid (x, y) }, clk, []))
    ∧ (alLookup s.positions pid ≠ some (x, y) →
        ingestPosition s pid x y clk =
          check_contacts { s with positions := alInsert s.positions pid (x, y) }
            pid x y clk)
    ∧ (alLookup s.positions pid = none → ∀ p, p ≠ pid →
        alLookup s.positions p = some (x, y) →
          (∃ t, (pid, (⟨p, (x, y), t⟩ : ContactEvent)) ∈
            (ingestPosition s pid x y clk).2.2) ∧
          (∃ t, (p, (⟨pid, (x, y), t⟩ : ContactEvent)) ∈
            (ingestPosition s pid x y clk).2.2)) := by
  refine ⟨ingestPosition_positions s pid x y clk, ?_, ?_, ?_⟩
  · intro h
    simp only [ingestPosition, if_pos h]
  · intro h
    simp only [ingestPosition, if_neg h]
  · intro hnone p hppid hlp
    have hne2 : alLookup s.positions pid ≠ some (x, y) := by
      rw [hnone]
      simp
    have heq : ingestPosition s pid x y clk =
        check_contacts { s with positions := alInsert s.positions pid (x, y) }
          pid x y clk := by
      simp only [ingestPosition, if_neg hne2]
    set s1 : TrackerState := { s with positions := alInsert s.positions pid (x, y) }
      with hs1
    have hlp1 : alLookup s1.positions p = some (x, y) := by
      show alLookup (alInsert s.positions pid (x, y)) p = some (x, y)
      rw [alLookup_alInsert_ne s.positions pid (x, y) p hppid]
      exact hlp
    have hp : p ∈ colocatedPeers s1 pid x y :=
      mem_colocatedPeers_of_lookup s1 pid x y p hppid hlp1
    set cs := (collectContacts pid x y s1.positions clk).1 with hcs2
    set clk1 := (collectContacts pid x y s1.positions clk).2 with hclk2
    have hcc : check_contacts s1 pid x y clk = recordContacts pid x y cs s1 clk1 := rfl
    have htr : (check_contacts s1 pid x y clk).2.2 = traceOf pid x y cs clk1 := by
      rw [hcc, record_trace]
    have hperson : cs.map ContactEvent.person = colocatedPeers s1 pid x y := by
      unfold colocatedPeers
      exact collect_map_person pid x y s1.positions clk
    have hpm : p ∈ cs.map ContactEvent.person := by
      rw [hperson]
      exact hp
    obtain ⟨c, hc, hcp⟩ := List.mem_map.1 hpm
    have hcm := collect_mem pid x y s1.positions clk c hc
    have hcform : c = ⟨p, (x, y), c.time⟩ := by
      obtain ⟨a, b, t2⟩ := c
      simp only [ContactEvent.mk.injEq]
      exact ⟨by simpa using hcp, by simpa using hcm.1, trivial⟩
    constructor
    · refine ⟨c.time, ?_⟩
      rw [heq, htr]
      have hm := traceOf_mem_forward pid x y cs clk1 c hc
      rwa [hcform] at hm
    · obtain ⟨t, ht⟩ := traceOf_mem_reverse pid x y cs clk1 c hc
      refine ⟨t, ?_⟩
      rw [heq, htr]
      rwa [hcp] at ht

/-- Witness for C3: first report of `cP1` onto the cell `cP2` occupies. -/
theorem handle_position_update_gate_witness :
    (∃ t, (cP1, (⟨cP2, (1, 1), t⟩ : ContactEvent)) ∈
      (ingestPosition fState cP1 1 1 0).2.2) ∧
      (∃ t, (cP2, (⟨cP1, (1, 1), t⟩ : ContactEvent)) ∈
        (ingestPosition fState cP1 1 1 0).2.2) :=
  (handle_position_update_gate fState cP1 1 1 0).2.2.2 (by decide) cP2 (by decide)
    (by decide)

/-- Claim C4 counterexample: from the store of the source's own test, in
which `cP1` already holds `(1, 1)`, the full update path
(`ingestPosition`, i.e. `onPositionUpdate`) sees an unchanged position,
skips the scan, and records no contact at all — `cP1`'s and `cP2`'s
histories stay empty, contrary to the claim. -/
theorem onPositionUpdate_test_cex :
    histGet (ingestPosition tState cP1 1 1 0).1 cP1 = [] ∧
      histGet (ingestPosition tState cP1 1 1 0).1 cP2 = [] ∧
      (ingestPosition tState cP1 1 1 0).2.2 = [] := by
  decide

/-- Claim C4 amended: calling the detection scan `check_contacts` directly
(as the source's test does) from the store
`(cP1, (1,1)), (cP2, (1,1)), (cP3, (2,2))` records exactly one contact in
`cP1`'s history naming `cP2`, exactly one in `cP2`'s history naming
`cP1`, and leaves `cP3`'s history empty. -/
theorem check_contacts_test :
    histGet (check_contacts tState cP1 1 1 0).1 cP1 = [⟨cP2, (1, 1), 0⟩] ∧
      histGet (check_contacts tState cP1 1 1 0).1 cP2 = [⟨cP1, (1, 1), 1⟩] ∧
      histGet (check_contacts tState cP1 1 1 0).1 cP3 = [] := by
  decide

/-- Claim C8 counterexample: the tracker stores whatever coordinates arrive
without validation: ingesting `(12, 0)` into an empty tracker leaves a
stored position outside the default `boardSize = 10` grid. -/
theorem positions_in_grid_cex :
    alLookup (ingestPosition wS0 wA 12 0 0).1.positions wA = some (12, 0) ∧
      ¬ inRange 10 (12, 0) := by
  decide

/-- Claim C8 amended: if every already-stored position lies on the board and
the ingested coordinates do too, every stored position after the ingest
lies on the board; and the simulator's clamped move `move_randomly_pos`
always produces coordinates inside `[0, boardSize)`, so updates published
by the simulator satisfy the premise. -/
theorem positions_in_grid_amended (bs : Int) (hbs : 1 ≤ bs) (s : TrackerState)
    (pid : AgentId) (x y : Int) (clk : Nat)
    (hs : ∀ pr ∈ s.positions, inRange bs pr.2) (hxy : inRange bs (x, y)) :
    (∀ pr ∈ (ingestPosition s pid x y clk).1.positions, inRange bs pr.2) ∧
      ∀ p d, inRange bs (move_randomly_pos bs p d) := by
  constructor
  · intro pr hpr
    rw [ingestPosition_positions] at hpr
    rcases mem_alInsert s.positions pid (x, y) pr hpr with h | h
    · rw [h]
      exact hxy
    · exact hs pr h
  · intro p d
    have h0 : (0 : Int) < bs := by omega
    unfold move_randomly_pos inRange
    exact ⟨le_max_left 0 _,
      max_lt h0 (lt_of_le_of_lt (min_le_left _ _) (by omega)),
      le_max_left 0 _,
      max_lt h0 (lt_of_le_of_lt (min_le_left _ _) (by omega))⟩

/-- Witness for C8 amended on the default board size 10. -/
theorem positions_in_grid_amended_witness :
    (∀ pr ∈ (ingestPosition wS0 wA 3 4 0).1.positions, inRange 10 pr.2) ∧
      ∀ p d, inRange 10 (move_randomly_pos 10 p d) :=
  positions_in_grid_amended 10 (by decide) wS0 wA 3 4 0 (by simp [wS0]) (by decide)

end ContactTracing
